import Mathlib

/-!
Verification of the `distributed-backup` repository against its specification.

The Go source is shallowly embedded: byte streams are `List Nat` (each element
one octet), file systems are functions from paths to optional contents, and the
callback-driven parts of the peer transport are embedded as explicit state
transition functions. All machine integers are `Nat` with `% 256` (resp.
`% 2 ^ 16`) inserted exactly where the source truncates.
-/

namespace DistributedBackup

/-! ### Byte-stream framing (`pkg/filemanager/backupper.go`)

`writeFilename` writes one length byte `uint8(len(b))` (i.e. `len % 256`)
followed by all of the name's bytes; it only fails if the underlying writer
fails, never because of the name's length. `receiveFile` reads one length
byte, then exactly that many name bytes, and treats the remainder of the
stream (until EOF) as the file content. -/

/-- Sender framing header, from `Backupper.writeFilename`: the single byte
`uint8(len(b))` followed by every byte of the name. Total: the Go function
returns an error only when the underlying writer errors. -/
def writeFilename (name : List Nat) : List Nat :=
  (name.length % 256) :: name

/-- One whole frame as produced by the sender: header then raw content bytes
(`sendSourceFile` / `sendSourceDirArchived` write the content after the
header). -/
def encodeFrame (name content : List Nat) : List Nat :=
  writeFilename name ++ content

/-- Receiver framing parse, from `Backupper.receiveFile`: `binary.Read` of one
length byte (error on empty stream), `binary.Read` into a buffer of that many
bytes (error if the stream is shorter), and the rest of the stream is the
content copied by `saveFile`. -/
def receiveParse (s : List Nat) : Option (List Nat × List Nat) :=
  match s with
  | [] => none
  | n :: rest => if rest.length < n then none else some (rest.take n, rest.drop n)

/-- Path separator byte used by `receiveFile`
(`os.PathSeparator`, `'/'` = 47). -/
def pathSepByte : Nat := 47

/-- The destination path computed by `receiveFile`:
`path := m.cfg.DestinationDir + string(os.PathSeparator) + string(name)`.
The received name is concatenated verbatim; the source performs no check on
the name's bytes. -/
def receiveFilePath (destDir : List Nat) (s : List Nat) : Option (List Nat) :=
  match receiveParse s with
  | none => none
  | some nc => some (destDir ++ pathSepByte :: nc.1)

/-! ### Password file (`pkg/passwordmanager/local_saver.go`) -/

/-- `LocalSaver.writePassword`: one length byte `uint8(len(b))` then the
password bytes. -/
def writePassword (p : List Nat) : List Nat :=
  (p.length % 256) :: p

/-- Plaintext produced by `LocalSaver.SavePasswords` before encryption:
`writePassword p1` then `writePassword p2`. -/
def savePasswordsPlaintext (p1 p2 : List Nat) : List Nat :=
  writePassword p1 ++ writePassword p2

/-- `LocalSaver.SavePasswords`: the plaintext is passed through
`Crypto.Encrypt` and written to the password file; `enc` is the encryption
function of the configured `Crypto`. -/
def savePasswords (enc : List Nat → List Nat) (p1 p2 : List Nat) : List Nat :=
  enc (savePasswordsPlaintext p1 p2)

/-- `LocalSaver.readPassword`: read one length byte (error on empty input),
then exactly that many bytes into `b`, returning them as the password. In
the Go body `return string(b), binary.Read(r, binary.BigEndian, b)` the
compiler hoists the `binary.Read` call ahead of the return's operand
evaluation, so the call fills `b` first and `string(b)` is built from the
filled buffer: the function returns the bytes that were read (a short read
is an error). -/
def readPassword (s : List Nat) : Option (List Nat × List Nat) :=
  match s with
  | [] => none
  | len :: rest =>
    if rest.length < len then none
    else some (rest.take len, rest.drop len)

/-- `LocalSaver.GetPasswords`: decrypt the file's content with
`Crypto.Decrypt` (`dec`), then parse two length-prefixed passwords. -/
def getPasswords (dec : List Nat → Option (List Nat)) (file : List Nat) :
    Option (List Nat × List Nat) :=
  match dec file with
  | none => none
  | some payload =>
    match readPassword payload with
    | none => none
    | some pr1 =>
      match readPassword pr1.2 with
      | none => none
      | some pr2 => some (pr1.1, pr2.1)

/-- The bytes of the password `"qwerty"` from the spec's scenario 5. -/
def qwertyBytes : List Nat := [113, 119, 101, 114, 116, 121]

/-- The bytes of the password `"asdfgh"` from the spec's scenario 5. -/
def asdfghBytes : List Nat := [97, 115, 100, 102, 103, 104]

/-! ### Peer transport (`pkg/peer/webrtc.go`)

The connection-state callback and the ICE-candidate trickling logic are
embedded as explicit state-transition functions. Candidates are abstracted
as naturals; the mailbox is the list of candidate payloads passed to
`signal.SendCandidate`, in call order. -/

/-- `webrtc.PeerConnectionState`. -/
inductive PeerConnState
  | new
  | connecting
  | connected
  | disconnected
  | failed
  | closed
deriving DecidableEq

/-- The condition of `WebRTC.onConnStateChange` under which the handler sends
on `shutdownChan`: the state is `disconnected`, `failed` or `closed`. The
handler has no one-shot guard; it sends every time the condition holds. -/
def onConnStateChangeSends : PeerConnState → Bool
  | .disconnected => true
  | .failed => true
  | .closed => true
  | _ => false

/-- Number of `done()` notifications the handler emits over a run whose
connection-state transitions are `trace`, in order. -/
def doneSignalCount (trace : List PeerConnState) : Nat :=
  (trace.filter onConnStateChangeSends).length

/-- An ICE candidate, abstracted. -/
abbrev Cand := Nat

/-- The candidate-relevant state of a `WebRTC` peer: the buffer
`p.candidates`, whether `p.conn.RemoteDescription() != nil`, whether
`p.conn.ConnectionState() == Closed`, and the candidate payloads published
to the mailbox so far (calls to `signal.SendCandidate`, in order). -/
structure PeerState where
  candidates : List Cand
  remoteDesc : Bool
  connClosed : Bool
  mailbox : List Cand

/-- `WebRTC.signalSendCandidate`: publication is a no-op when the connection
state is `Closed`, otherwise the payload goes to the mailbox. -/
def signalSendCandidate (s : PeerState) (c : Cand) : PeerState :=
  if s.connClosed then s else { s with mailbox := s.mailbox ++ [c] }

/-- `WebRTC.onConnICECandidate` (non-nil candidate): if no remote description
is installed the candidate is appended to the buffer, otherwise it is
published immediately via `signalSendCandidate`. -/
def onConnICECandidate (s : PeerState) (c : Cand) : PeerState :=
  if s.remoteDesc = false then { s with candidates := s.candidates ++ [c] }
  else signalSendCandidate s c

/-- The flush loop at the end of `WebRTC.onSignalSDP`: every buffered
candidate is passed to `signalSendCandidate`, in buffer order. The buffer
itself is not modified. -/
def flushCandidates (s : PeerState) : PeerState :=
  s.candidates.foldl signalSendCandidate s

/-- `WebRTC.onSignalSDP`, candidate-relevant part: `SetRemoteDescription`
installs the remote description (answer creation and publication do not touch
the candidate state), then the buffered candidates are flushed. -/
def onSignalSDP (s : PeerState) : PeerState :=
  flushCandidates { s with remoteDesc := true }

/-- A sequence of local ICE-candidate emissions, each handled by
`onConnICECandidate`. -/
def runCandidates (s : PeerState) (cs : List Cand) : PeerState :=
  cs.foldl onConnICECandidate s

/-- The peer state right after `NewWebRTC`: empty buffer, no remote
description, not closed, nothing published. -/
def initPeerState : PeerState := ⟨[], false, false, []⟩

/-! ### Signal mailbox (`pkg/signal/file_io.go`) -/

/-- Whether `sub` is an initial segment of `l` (helper for the substring
test). -/
def leadsWith : List Char → List Char → Bool
  | [], _ => true
  | _ :: _, [] => false
  | a :: as, b :: bs => a == b && leadsWith as bs

/-- Model of Go's `strings.Contains(s, sub)` on the underlying character
lists: `sub` occurs contiguously somewhere in the list. -/
def containsSub (sub : List Char) : List Char → Bool
  | [] => sub.isEmpty
  | c :: rest => leadsWith sub (c :: rest) || containsSub sub rest

/-- One element of `fileIoFiles.Nodes`: the server key and the entry name. -/
structure SignalNode where
  key : String
  name : String
deriving DecidableEq

/-- The filename `uploadPing` posts:
`fmt.Sprintf("%s_%s_%s.json", SessionID, "ping", InstanceID)`. -/
def pingFilename (sessionID instanceID : String) : String :=
  sessionID ++ "_" ++ "ping" ++ "_" ++ instanceID ++ ".json"

/-- The search pattern `findPing` uses:
`fmt.Sprintf("%s_%s", SessionID, "ping")`. -/
def findPingPattern (sessionID : String) : String :=
  sessionID ++ "_" ++ "ping"

/-- The outcome of `FileIo.Ping`: success (peer found), the distinguished
`ErrNoCandidatesFound`, or a propagated failure. -/
inductive PingOutcome
  | ok
  | noCandidatesFound
  | failed (e : String)
deriving DecidableEq

/-- The mailbox operations `Ping` performs: names uploaded and keys whose
deletion was requested, in order. -/
structure PingEffects where
  uploads : List String
  deletes : List String
deriving DecidableEq

/-- `FileIo.Ping`. `findRes` is the outcome of `findPing`, `uploadRes` that
of `uploadPing`, and the last argument the per-key outcome of `deleteFile`;
the source inspects a delete's outcome only to log it, so individual delete
failures never influence the result (hence the argument is unused). -/
def ping (sessionID instanceID : String)
    (findRes : Except String (List SignalNode))
    (uploadRes : Except String Unit)
    (_deleteRes : String → Except String Unit) : PingOutcome × PingEffects :=
  match findRes with
  | .error e => (.failed e, ⟨[], []⟩)
  | .ok nodes =>
    if nodes.isEmpty then
      match uploadRes with
      | .error e => (.failed e, ⟨[pingFilename sessionID instanceID], []⟩)
      | .ok _ => (.noCandidatesFound, ⟨[pingFilename sessionID instanceID], []⟩)
    else
      (.ok, ⟨[], nodes.map SignalNode.key⟩)

/-- The decoded body of a mailbox entry (`fileIoFileContent`): the `type`
string and the payload bytes. -/
structure SignalContent where
  ctype : String
  payload : List Nat
deriving DecidableEq

/-- A dispatch performed by the polling loop: which handler was invoked and
with which payload. -/
inductive Delivered
  | sdpHandler (payload : List Nat)
  | candidateHandler (payload : List Nat)
deriving DecidableEq

/-- `FileIo.sniffCandidates` for one poll: for each listed entry, skip it if
its name contains this instance's `InstanceID`; otherwise download it (a
failure is logged and the entry skipped) and dispatch on the content type —
`"sdp"` to the SDP handler, `"candidate"` to the candidate handler, anything
else ignored. Returns the dispatches with their source entries, in order. -/
def sniffCandidates (instanceID : String) (entries : List SignalNode)
    (download : String → Except String SignalContent) :
    List (SignalNode × Delivered) :=
  match entries with
  | [] => []
  | e :: rest =>
    if containsSub instanceID.data e.name.data then
      sniffCandidates instanceID rest download
    else
      match download e.key with
      | .error _ => sniffCandidates instanceID rest download
      | .ok c =>
        if c.ctype = "sdp" then
          (e, .sdpHandler c.payload) :: sniffCandidates instanceID rest download
        else if c.ctype = "candidate" then
          (e, .candidateHandler c.payload) ::
            sniffCandidates instanceID rest download
        else
          sniffCandidates instanceID rest download

/-- Errors of the mailbox HTTP helpers: a status outside the allow-list, or
a JSON deserialisation failure (propagated verbatim). -/
inductive SigErr
  | badStatus (code : Nat)
  | decodeFailed (msg : String)
deriving DecidableEq

/-- `FileIo.downloadFile` after the HTTP request: statuses other than 200
(`http.StatusOK`) and 404 (`http.StatusNotFound`) are errors; otherwise the
body is JSON-decoded (`decodeRes`) and a decode failure propagates. -/
def downloadFile (status : Nat) (decodeRes : Except String SignalContent) :
    Except SigErr SignalContent :=
  if status ≠ 200 ∧ status ≠ 404 then .error (.badStatus status)
  else
    match decodeRes with
    | .error m => .error (.decodeFailed m)
    | .ok c => .ok c

/-- `FileIo.deleteFile` after the HTTP request: statuses other than 200
(`http.StatusOK`) and 403 (`http.StatusForbidden`) are errors; 403 is
tolerated as "entry already gone". -/
def deleteFile (status : Nat) : Except SigErr Unit :=
  if status ≠ 200 ∧ status ≠ 403 then .error (.badStatus status)
  else .ok ()

/-! ### Version rotation (`Backupper.shiftFileVersions`)

File names are character lists, the file system a function from names to
optional contents (contents abstracted as naturals). The decimal rendering
of the version index mirrors `fmt.Sprintf(".%d", i)`. -/

/-- Fuelled decimal rendering: peels the least significant digit, mirroring
`%d` for a non-negative integer. -/
def decDigitsCore : Nat → Nat → List Char → List Char
  | 0, _, ds => ds
  | f + 1, n, ds =>
    if n < 10 then Nat.digitChar (n % 10) :: ds
    else decDigitsCore f (n / 10) (Nat.digitChar (n % 10) :: ds)

/-- Decimal rendering of a natural number, as `fmt.Sprintf("%d", n)` prints
it (`n + 1` fuel always suffices, since `n` has at most `n + 1` digits). -/
def decDigits (n : Nat) : List Char :=
  decDigitsCore (n + 1) n []

/-- Numeric value of a decimal digit character. -/
def digitVal (c : Char) : Nat := c.toNat - 48

/-- One step of reading a decimal string back, most significant digit
first. -/
def decEvalStep (a : Nat) (c : Char) : Nat := 10 * a + digitVal c

/-- Value of a decimal digit string. -/
def decEval (ds : List Char) : Nat := ds.foldl decEvalStep 0

/-- A file name. -/
abbrev FsPath := List Char

/-- A file system: file names to optional contents. -/
abbrev Fs := FsPath → Option Nat

/-- The name of version `i` of `path`, from the loop body of
`shiftFileVersions`: `oldVersionPath := path`, and for `i != 0` the suffix
`fmt.Sprintf(".%d", i)` is appended. -/
def verName (path : FsPath) (i : Nat) : FsPath :=
  if i = 0 then path else path ++ ('.' :: decDigits i)

/-- Effect of `os.Remove(p)` on the file system. -/
def fsRemove (fs : Fs) (p : FsPath) : Fs :=
  fun n => if n = p then none else fs n

/-- Effect of `os.Rename(old, new)` on the file system: `new` now holds what
`old` held, `old` is gone (an existing `new` is overwritten). -/
def fsRename (fs : Fs) (old new : FsPath) : Fs :=
  fun n => if n = new then fs old else if n = old then none else fs n

/-- One iteration of the `shiftFileVersions` loop at index `i`: if the file
at version `i` does not exist (`os.IsNotExist`), continue; if `i` is the
oldest index, remove it; otherwise rename it to version `i + 1`. -/
def shiftStep (fs : Fs) (path : FsPath) (oldest i : Nat) : Fs :=
  match fs (verName path i) with
  | none => fs
  | some _ =>
    if i = oldest then fsRemove fs (verName path i)
    else fsRename fs (verName path i) (verName path (i + 1))

/-- The `for i := oldestVersion; i >= 0; i--` loop of `shiftFileVersions`,
iterating from index `i` down to 0. -/
def shiftLoop (path : FsPath) (oldest : Nat) : Fs → Nat → Fs
  | fs, 0 => shiftStep fs path oldest 0
  | fs, i + 1 => shiftLoop path oldest (shiftStep fs path oldest (i + 1)) i

/-- `Backupper.shiftFileVersions` with cap `versions` (`m.cfg.Versions`, a
`uint16`): for `versions = 0` the loop body never runs
(`oldestVersion = -1`); otherwise the loop runs from `versions - 1` down
to 0. -/
def shiftFileVersions (fs : Fs) (path : FsPath) (versions : Nat) : Fs :=
  if versions = 0 then fs else shiftLoop path (versions - 1) fs (versions - 1)

end DistributedBackup

namespace DistributedBackup

/-! ### Theorems for claims C1, C2, C4, C10 -/

/-- C1 (confirmed): password round trip. For every pair of passwords of at
most 255 bytes and every encrypt/decrypt pair that round-trips (as the
AES-128-CBC + PKCS#7 `Crypto` does), `SavePasswords` followed by
`GetPasswords` on the same file returns exactly the original pair, and the
plaintext layout is `u8 len(p1) | p1 | u8 len(p2) | p2`. -/
theorem password_roundtrip (enc : List Nat → List Nat)
    (dec : List Nat → Option (List Nat))
    (hcrypto : ∀ x, dec (enc x) = some x)
    (p1 p2 : List Nat) (h1 : p1.length ≤ 255) (h2 : p2.length ≤ 255) :
    getPasswords dec (savePasswords enc p1 p2) = some (p1, p2) ∧
    savePasswordsPlaintext p1 p2 =
      (p1.length :: p1) ++ (p2.length :: p2) := by
  have hm1 : p1.length % 256 = p1.length := Nat.mod_eq_of_lt (by omega)
  have hm2 : p2.length % 256 = p2.length := Nat.mod_eq_of_lt (by omega)
  have hlayout : savePasswordsPlaintext p1 p2 =
      (p1.length :: p1) ++ (p2.length :: p2) := by
    simp [savePasswordsPlaintext, writePassword, hm1, hm2]
  refine ⟨?_, hlayout⟩
  have hdec : dec (enc (savePasswordsPlaintext p1 p2)) =
      some (savePasswordsPlaintext p1 p2) := hcrypto _
  rw [hlayout] at hdec
  have hr1 : readPassword ((p1.length :: p1) ++ (p2.length :: p2)) =
      some (p1, p2.length :: p2) := by
    rw [List.cons_append, readPassword]
    rw [if_neg (by rw [List.length_append]; omega)]
    rw [List.take_left, List.drop_left]
  have hr2 : readPassword (p2.length :: p2) = some (p2, []) := by
    rw [readPassword]
    rw [if_neg (by omega)]
    rw [List.take_length, List.drop_length]
  simp only [getPasswords, savePasswords, hlayout, hdec, hr1, hr2]

/-- Witness for `password_roundtrip` at the spec's scenario 5 passwords
`"qwerty"` and `"asdfgh"`, with an identity crypto pair. -/
theorem password_roundtrip_witness :
    getPasswords (fun x => some x)
        (savePasswords (fun x => x) qwertyBytes asdfghBytes) =
      some (qwertyBytes, asdfghBytes) ∧
    savePasswordsPlaintext qwertyBytes asdfghBytes =
      (qwertyBytes.length :: qwertyBytes) ++
        (asdfghBytes.length :: asdfghBytes) :=
  password_roundtrip (fun x => x) (fun x => some x) (fun _ => rfl)
    qwertyBytes asdfghBytes (by decide) (by decide)

/-- C2 (code bug): `receiveFile` performs no path-separator check on the
decoded filename. For the received frame whose filename is `"../evil"`
(bytes `46,46,47,101,118,105,108`, containing the separator byte 47), the
receiver accepts the name and computes the write path
`DestinationDir / "../evil"`, which escapes the destination directory. -/
theorem receiveFile_accepts_separator_names :
    receiveFilePath [111, 117, 116]
        (encodeFrame [46, 46, 47, 101, 118, 105, 108] [104, 105]) =
      some ([111, 117, 116] ++ pathSepByte :: [46, 46, 47, 101, 118, 105, 108]) ∧
    pathSepByte ∈ [46, 46, 47, 101, 118, 105, 108] := by
  constructor
  · rfl
  · decide

/-- C4 (confirmed): framing round trip. For every filename of 1 to 255 bytes
and every content, encoding with the sender's framing and decoding with the
receiver's framing returns exactly the original pair. -/
theorem frame_roundtrip (name content : List Nat)
    (hlen : 1 ≤ name.length) (hmax : name.length ≤ 255) :
    receiveParse (encodeFrame name content) = some (name, content) := by
  have hmod : name.length % 256 = name.length :=
    Nat.mod_eq_of_lt (by omega)
  have hnotlt : ¬ (name ++ content).length < name.length % 256 := by
    rw [hmod, List.length_append]; omega
  simp only [encodeFrame, writeFilename, List.cons_append, receiveParse, hmod]
  rw [if_neg (by rw [List.length_append]; omega)]
  rw [List.take_left, List.drop_left]

/-- Witness for `frame_roundtrip` at name `"a"` and content `[98]`. -/
theorem frame_roundtrip_witness :
    receiveParse (encodeFrame [97] [98]) = some ([97], [98]) :=
  frame_roundtrip [97] [98] (by decide) (by decide)

/-- C10 (confirmed): for a filename longer than 255 bytes the sender's header
encoder still produces a frame — one length byte `len mod 256` followed by
all the name bytes — and the declared length disagrees with the number of
name bytes actually written. (`writeFilename` is total: the Go function
can only fail on writer errors.) -/
theorem writeFilename_truncates_declared_length (name : List Nat)
    (hlong : 255 < name.length) :
    writeFilename name = (name.length % 256) :: name ∧
    name.length % 256 ≠ name.length := by
  refine ⟨rfl, ?_⟩
  have : name.length % 256 < 256 := Nat.mod_lt _ (by omega)
  omega

set_option maxRecDepth 8192 in
/-- Witness for `writeFilename_truncates_declared_length` at a 300-byte
name: the declared length byte is 44. -/
theorem writeFilename_truncates_declared_length_witness :
    writeFilename (List.replicate 300 7) =
      ((List.replicate 300 7).length % 256) :: List.replicate 300 7 ∧
    (List.replicate 300 7).length % 256 ≠ (List.replicate 300 7).length :=
  writeFilename_truncates_declared_length (List.replicate 300 7) (by decide)

/-! ### Helper lemmas for the peer transport -/

/-- Candidates emitted while no remote description is installed are appended
to the buffer, and nothing else changes, whatever the closed flag. -/
theorem runCandidates_buffers (cs : List Cand) :
    ∀ (buf mb : List Cand) (cl : Bool),
      runCandidates ⟨buf, false, cl, mb⟩ cs = ⟨buf ++ cs, false, cl, mb⟩ := by
  induction cs with
  | nil => intro buf mb cl; simp [runCandidates]
  | cons c cs ih =>
    intro buf mb cl
    have hstep : onConnICECandidate ⟨buf, false, cl, mb⟩ c =
        ⟨buf ++ [c], false, cl, mb⟩ := by
      simp [onConnICECandidate]
    simp only [runCandidates, List.foldl_cons, hstep]
    have := ih (buf ++ [c]) mb cl
    simp only [runCandidates] at this
    rw [this]
    simp

/-- Publishing a list of candidates with the connection not closed appends
them all to the mailbox in order. -/
theorem foldl_signalSend (cs : List Cand) :
    ∀ (buf mb : List Cand) (r : Bool),
      List.foldl signalSendCandidate ⟨buf, r, false, mb⟩ cs =
        ⟨buf, r, false, mb ++ cs⟩ := by
  induction cs with
  | nil => intro buf mb r; simp
  | cons c cs ih =>
    intro buf mb r
    have hstep : signalSendCandidate ⟨buf, r, false, mb⟩ c =
        ⟨buf, r, false, mb ++ [c]⟩ := by
      simp [signalSendCandidate]
    simp only [List.foldl_cons, hstep, ih (buf) (mb ++ [c]) r]
    simp

/-- With the connection closed, publishing is a no-op for the whole list. -/
theorem foldl_signalSend_closed (cs : List Cand) (s : PeerState)
    (h : s.connClosed = true) :
    List.foldl signalSendCandidate s cs = s := by
  induction cs with
  | nil => rfl
  | cons c cs ih =>
    have hstep : signalSendCandidate s c = s := by
      simp [signalSendCandidate, h]
    simp only [List.foldl_cons, hstep, ih]

/-- Candidates emitted after the remote description is installed (connection
not closed) are published immediately and never buffered. -/
theorem runCandidates_publishes (cs : List Cand) :
    ∀ (buf mb : List Cand),
      runCandidates ⟨buf, true, false, mb⟩ cs = ⟨buf, true, false, mb ++ cs⟩ := by
  induction cs with
  | nil => intro buf mb; simp [runCandidates]
  | cons c cs ih =>
    intro buf mb
    have hstep : onConnICECandidate ⟨buf, true, false, mb⟩ c =
        ⟨buf, true, false, mb ++ [c]⟩ := by
      simp [onConnICECandidate, signalSendCandidate]
    simp only [runCandidates, List.foldl_cons, hstep]
    have := ih buf (mb ++ [c])
    simp only [runCandidates] at this
    rw [this]
    simp

/-! ### Theorems for claims C5 and C6 -/

/-- C5 (counterexample): over the transition sequence
`disconnected, closed` — two terminal transitions firing in sequence — the
`onConnStateChange` handler emits two `done()` notifications, not exactly
one as the claim states. -/
theorem done_signal_double_send :
    doneSignalCount [PeerConnState.disconnected, PeerConnState.closed] = 2 ∧
    onConnStateChangeSends PeerConnState.disconnected = true ∧
    onConnStateChangeSends PeerConnState.closed = true ∧
    doneSignalCount [PeerConnState.disconnected, PeerConnState.closed] ≠ 1 := by
  decide

/-- C5 (amended): the handler emits one `done()` notification per terminal
transition — so exactly once when exactly one of `disconnected`, `failed`,
`closed` fires — and never for a non-terminal state; over concatenated
transition sequences the notification count is additive (one per terminal
transition, with no coalescing). -/
theorem done_signal_per_terminal_transition :
    (∀ (pre post : List PeerConnState) (t : PeerConnState),
        (∀ s ∈ pre, onConnStateChangeSends s = false) →
        (∀ s ∈ post, onConnStateChangeSends s = false) →
        onConnStateChangeSends t = true →
        doneSignalCount (pre ++ t :: post) = 1) ∧
    (∀ s : PeerConnState, onConnStateChangeSends s = true ↔
        (s = PeerConnState.disconnected ∨ s = PeerConnState.failed ∨
          s = PeerConnState.closed)) ∧
    (∀ t1 t2 : List PeerConnState,
        doneSignalCount (t1 ++ t2) = doneSignalCount t1 + doneSignalCount t2) := by
  refine ⟨?_, ?_, ?_⟩
  · intro pre post t hpre hpost ht
    have h1 : pre.filter onConnStateChangeSends = [] := by
      rw [List.filter_eq_nil_iff]
      intro a ha
      simp [hpre a ha]
    have h2 : post.filter onConnStateChangeSends = [] := by
      rw [List.filter_eq_nil_iff]
      intro a ha
      simp [hpost a ha]
    simp [doneSignalCount, List.filter_append, List.filter_cons, h1, h2, ht]
  · intro s
    cases s <;> simp [onConnStateChangeSends]
  · intro t1 t2
    simp [doneSignalCount, List.filter_append]

/-- Witness for `done_signal_per_terminal_transition`: the run
`connecting, connected, failed` delivers exactly one notification. -/
theorem done_signal_per_terminal_transition_witness :
    doneSignalCount
      ([PeerConnState.connecting, PeerConnState.connected] ++
        PeerConnState.failed :: []) = 1 :=
  done_signal_per_terminal_transition.1
    [PeerConnState.connecting, PeerConnState.connected] []
    PeerConnState.failed (by decide) (by decide) (by decide)

/-- C6 (confirmed): candidate buffering invariant. For a run that emits the
candidates `pre`, then installs the remote description, then emits the
candidates `post` (connection never closed): every `pre` candidate is
buffered and nothing is published before installation; installation flushes
the buffer to the mailbox once, in emission order; every `post` candidate is
published immediately and never buffered. Additionally, with the connection
closed, both immediate publication and the flush are suppressed. -/
theorem candidate_buffering_invariant (pre post : List Cand)
    (buf pub : List Cand) (c : Cand) :
    (runCandidates initPeerState pre).candidates = pre ∧
    (runCandidates initPeerState pre).mailbox = [] ∧
    (onSignalSDP (runCandidates initPeerState pre)).mailbox = pre ∧
    (onSignalSDP (runCandidates initPeerState pre)).remoteDesc = true ∧
    (runCandidates (onSignalSDP (runCandidates initPeerState pre)) post).mailbox
      = pre ++ post ∧
    (runCandidates (onSignalSDP (runCandidates initPeerState pre)) post).candidates
      = pre ∧
    onConnICECandidate ⟨buf, true, true, pub⟩ c = ⟨buf, true, true, pub⟩ ∧
    (onSignalSDP ⟨buf, false, true, pub⟩).mailbox = pub := by
  have h1 : runCandidates initPeerState pre = ⟨pre, false, false, []⟩ := by
    have := runCandidates_buffers pre [] [] false
    simpa [initPeerState] using this
  have h2 : onSignalSDP (⟨pre, false, false, []⟩ : PeerState) =
      ⟨pre, true, false, pre⟩ := by
    have := foldl_signalSend pre pre [] true
    simpa [onSignalSDP, flushCandidates] using this
  have h3 : runCandidates (⟨pre, true, false, pre⟩ : PeerState) post =
      ⟨pre, true, false, pre ++ post⟩ := runCandidates_publishes post pre pre
  have h4 : onConnICECandidate ⟨buf, true, true, pub⟩ c =
      ⟨buf, true, true, pub⟩ := by
    simp [onConnICECandidate, signalSendCandidate]
  have h5 : onSignalSDP (⟨buf, false, true, pub⟩ : PeerState) =
      ⟨buf, true, true, pub⟩ :=
    foldl_signalSend_closed buf ⟨buf, true, true, pub⟩ rfl
  rw [h1, h2, h3, h4, h5]
  simp

/-! ### Helper lemmas for the signal mailbox -/

/-- A list is an initial segment of itself followed by anything. -/
theorem leadsWith_self_append (sub rest : List Char) :
    leadsWith sub (sub ++ rest) = true := by
  induction sub with
  | nil => rfl
  | cons a as ih => simp [leadsWith, ih]

/-- An initial-segment occurrence is an occurrence. -/
theorem containsSub_of_leadsWith (sub l : List Char)
    (h : leadsWith sub l = true) : containsSub sub l = true := by
  cases l with
  | nil =>
    cases sub with
    | nil => rfl
    | cons a as => simp [leadsWith] at h
  | cons c rest => simp [containsSub, h]

/-- Any list of the form `pre ++ sub ++ post` contains `sub`. -/
theorem containsSub_append (sub pre post : List Char) :
    containsSub sub (pre ++ (sub ++ post)) = true := by
  induction pre with
  | nil =>
    exact containsSub_of_leadsWith sub (sub ++ post) (leadsWith_self_append sub post)
  | cons p ps ih => simp [containsSub, ih]

/-! ### Theorems for claims C7, C8, C9 -/

/-- C7 (confirmed): role election. `Ping` propagates a search failure; when
no `${SessionID}_ping` entry exists it uploads a ping entry whose name
carries this instance's `InstanceID` and reports no-candidates-found (or the
upload's own error); when at least one entry exists it requests deletion of
every matching entry's key and reports success, whatever the individual
delete outcomes `d`. The search pattern is `${SessionID}_ping`. -/
theorem ping_role_election :
    ∀ (sid iid e : String) (u : Except String Unit)
      (d : String → Except String Unit) (n : SignalNode)
      (ns : List SignalNode),
      ping sid iid (Except.error e) u d = (PingOutcome.failed e, ⟨[], []⟩) ∧
      ping sid iid (Except.ok []) (Except.ok ()) d =
        (PingOutcome.noCandidatesFound, ⟨[pingFilename sid iid], []⟩) ∧
      ping sid iid (Except.ok []) (Except.error e) d =
        (PingOutcome.failed e, ⟨[pingFilename sid iid], []⟩) ∧
      ping sid iid (Except.ok (n :: ns)) u d =
        (PingOutcome.ok, ⟨[], (n :: ns).map SignalNode.key⟩) ∧
      containsSub iid.data (pingFilename sid iid).data = true ∧
      findPingPattern sid = sid ++ "_" ++ "ping" := by
  intro sid iid e u d n ns
  refine ⟨rfl, rfl, rfl, ?_, ?_, rfl⟩
  · simp [ping]
  · have h : (pingFilename sid iid).data =
        (sid.data ++ "_ping_".data) ++ (iid.data ++ ".json".data) := by
      simp [pingFilename, String.data_append]
    rw [h]
    exact containsSub_append iid.data (sid.data ++ "_ping_".data) ".json".data

/-- C8 (confirmed): mailbox author-exclusion and dispatch-by-type. No
dispatch of one poll comes from an entry whose name contains this instance's
`InstanceID`; every dispatch comes from a successfully downloaded entry of
type `"sdp"` (to the SDP handler) or `"candidate"` (to the candidate
handler), with the content's payload; and conversely every listed entry not
authored by this instance whose download succeeds with one of those two
types is dispatched to the matching handler. -/
theorem sniff_author_exclusion (instID : String) (entries : List SignalNode)
    (download : String → Except String SignalContent) :
    (∀ p ∈ sniffCandidates instID entries download,
        containsSub instID.data p.1.name.data = false) ∧
    (∀ p ∈ sniffCandidates instID entries download,
        ∃ c, download p.1.key = Except.ok c ∧
          ((c.ctype = "sdp" ∧ p.2 = Delivered.sdpHandler c.payload) ∨
            (c.ctype = "candidate" ∧ p.2 = Delivered.candidateHandler c.payload))) ∧
    (∀ e ∈ entries, containsSub instID.data e.name.data = false →
        ∀ c, download e.key = Except.ok c →
          (c.ctype = "sdp" →
            (e, Delivered.sdpHandler c.payload) ∈
              sniffCandidates instID entries download) ∧
          (c.ctype = "candidate" →
            (e, Delivered.candidateHandler c.payload) ∈
              sniffCandidates instID entries download)) := by
  induction entries with
  | nil => exact ⟨by simp [sniffCandidates], by simp [sniffCandidates],
      by simp⟩
  | cons e rest ih =>
    obtain ⟨ih1, ih2, ih3⟩ := ih
    by_cases hskip : containsSub instID.data e.name.data = true
    · have hs : sniffCandidates instID (e :: rest) download =
          sniffCandidates instID rest download := by
        simp [sniffCandidates, hskip]
      refine ⟨by rw [hs]; exact ih1, by rw [hs]; exact ih2, ?_⟩
      intro e' he' hnc c hdl
      rcases List.mem_cons.mp he' with rfl | hmem
      · exact absurd hskip (by simp [hnc])
      · have := ih3 e' hmem hnc c hdl
        rw [hs]; exact this
    · have hsk : containsSub instID.data e.name.data = false := by
        simpa using hskip
      cases hdl : download e.key with
      | error msg =>
        have hs : sniffCandidates instID (e :: rest) download =
            sniffCandidates instID rest download := by
          simp [sniffCandidates, hsk, hdl]
        refine ⟨by rw [hs]; exact ih1, by rw [hs]; exact ih2, ?_⟩
        intro e' he' hnc c hdc
        rcases List.mem_cons.mp he' with rfl | hmem
        · rw [hdl] at hdc; exact absurd hdc (by simp)
        · rw [hs]; exact ih3 e' hmem hnc c hdc
      | ok c =>
        by_cases hsdp : c.ctype = "sdp"
        · have hs : sniffCandidates instID (e :: rest) download =
              (e, Delivered.sdpHandler c.payload) ::
                sniffCandidates instID rest download := by
            simp [sniffCandidates, hsk, hdl, hsdp]
          refine ⟨?_, ?_, ?_⟩
          · intro p hp
            rcases List.mem_cons.mp (hs ▸ hp) with rfl | hmem
            · exact hsk
            · exact ih1 p hmem
          · intro p hp
            rcases List.mem_cons.mp (hs ▸ hp) with rfl | hmem
            · exact ⟨c, hdl, Or.inl ⟨hsdp, rfl⟩⟩
            · exact ih2 p hmem
          · intro e' he' hnc c' hdc
            rcases List.mem_cons.mp he' with rfl | hmem
            · rw [hdl] at hdc
              have hcc : c' = c := by
                cases hdc; rfl
              subst hcc
              constructor
              · intro _; rw [hs]; exact List.mem_cons_self _ _
              · intro hcand; rw [hsdp] at hcand; exact absurd hcand (by decide)
            · have := ih3 e' hmem hnc c' hdc
              exact ⟨fun h => by rw [hs]; exact List.mem_cons_of_mem _ (this.1 h),
                fun h => by rw [hs]; exact List.mem_cons_of_mem _ (this.2 h)⟩
        · by_cases hcand : c.ctype = "candidate"
          · have hs : sniffCandidates instID (e :: rest) download =
                (e, Delivered.candidateHandler c.payload) ::
                  sniffCandidates instID rest download := by
              simp [sniffCandidates, hsk, hdl, hsdp, hcand]
            refine ⟨?_, ?_, ?_⟩
            · intro p hp
              rcases List.mem_cons.mp (hs ▸ hp) with rfl | hmem
              · exact hsk
              · exact ih1 p hmem
            · intro p hp
              rcases List.mem_cons.mp (hs ▸ hp) with rfl | hmem
              · exact ⟨c, hdl, Or.inr ⟨hcand, rfl⟩⟩
              · exact ih2 p hmem
            · intro e' he' hnc c' hdc
              rcases List.mem_cons.mp he' with rfl | hmem
              · rw [hdl] at hdc
                have hcc : c' = c := by
                  cases hdc; rfl
                subst hcc
                constructor
                · intro hsdp'; exact absurd hsdp' hsdp
                · intro _; rw [hs]; exact List.mem_cons_self _ _
              · have := ih3 e' hmem hnc c' hdc
                exact ⟨fun h => by rw [hs]; exact List.mem_cons_of_mem _ (this.1 h),
                  fun h => by rw [hs]; exact List.mem_cons_of_mem _ (this.2 h)⟩
          · have hs : sniffCandidates instID (e :: rest) download =
                sniffCandidates instID rest download := by
              simp [sniffCandidates, hsk, hdl, hsdp, hcand]
            refine ⟨by rw [hs]; exact ih1, by rw [hs]; exact ih2, ?_⟩
            intro e' he' hnc c' hdc
            rcases List.mem_cons.mp he' with rfl | hmem
            · rw [hdl] at hdc
              have hcc : c' = c := by
                cases hdc; rfl
              subst hcc
              exact ⟨fun h => absurd h hsdp, fun h => absurd h hcand⟩
            · rw [hs]; exact ih3 e' hmem hnc c' hdc

/-- Witness for `sniff_author_exclusion`: a poll with one foreign `sdp`
entry dispatches it to the SDP handler. -/
theorem sniff_author_exclusion_witness :
    (SignalNode.mk "k1" "sess_sdp_other", Delivered.sdpHandler [3]) ∈
      sniffCandidates "me" [SignalNode.mk "k1" "sess_sdp_other"]
        (fun _ => Except.ok (SignalContent.mk "sdp" [3])) :=
  ((sniff_author_exclusion "me" [SignalNode.mk "k1" "sess_sdp_other"]
      (fun _ => Except.ok (SignalContent.mk "sdp" [3]))).2.2
    (SignalNode.mk "k1" "sess_sdp_other") (by simp) (by decide)
    (SignalContent.mk "sdp" [3]) rfl).1 rfl

/-- C9 (confirmed): per-verb HTTP status allow-lists. Download succeeds
exactly for statuses 200 and 404 (404 tolerated, then the body is decoded
as usual and a deserialisation failure propagates verbatim); delete succeeds
exactly for statuses 200 and 403 (403 tolerated as a no-op); every other
status yields a status error carrying that status. -/
theorem mailbox_status_allowlists :
    ∀ (st : Nat) (dec : Except String SignalContent) (m : String)
      (c : SignalContent),
      downloadFile 200 (Except.ok c) = Except.ok c ∧
      downloadFile 404 (Except.ok c) = Except.ok c ∧
      downloadFile 200 (Except.error m) = Except.error (SigErr.decodeFailed m) ∧
      downloadFile 404 (Except.error m) = Except.error (SigErr.decodeFailed m) ∧
      (st ≠ 200 → st ≠ 404 →
        downloadFile st dec = Except.error (SigErr.badStatus st)) ∧
      deleteFile 200 = Except.ok () ∧
      deleteFile 403 = Except.ok () ∧
      (st ≠ 200 → st ≠ 403 →
        deleteFile st = Except.error (SigErr.badStatus st)) := by
  intro st dec m c
  refine ⟨rfl, rfl, rfl, rfl, ?_, rfl, rfl, ?_⟩
  · intro h1 h2
    simp [downloadFile, h1, h2]
  · intro h1 h2
    simp [deleteFile, h1, h2]

/-- Witness for `mailbox_status_allowlists` at status 500: both verbs
propagate the status error. -/
theorem mailbox_status_allowlists_witness :
    downloadFile 500 (Except.ok (SignalContent.mk "sdp" [])) =
      Except.error (SigErr.badStatus 500) ∧
    deleteFile 500 = Except.error (SigErr.badStatus 500) :=
  ⟨(mailbox_status_allowlists 500 (Except.ok (SignalContent.mk "sdp" []))
      "m" (SignalContent.mk "sdp" [])).2.2.2.2.1 (by decide) (by decide),
    (mailbox_status_allowlists 500 (Except.ok (SignalContent.mk "sdp" []))
      "m" (SignalContent.mk "sdp" [])).2.2.2.2.2.2.2 (by decide) (by decide)⟩

/-! ### Helper lemmas for version rotation -/

/-- Reading back a decimal digit gives the digit. -/
theorem digitVal_digitChar (d : Nat) (hd : d < 10) :
    digitVal (Nat.digitChar d) = d := by
  interval_cases d <;> decide

/-- Correctness of the fuelled rendering with respect to the read-back
function, for sufficient fuel and arbitrary accumulated suffix. -/
theorem decDigitsCore_eval :
    ∀ (f n : Nat) (ds : List Char), n < 10 ^ f →
      List.foldl decEvalStep 0 (decDigitsCore f n ds) =
        List.foldl decEvalStep n ds := by
  intro f
  induction f with
  | zero =>
    intro n ds hn
    have : n = 0 := by simpa using hn
    subst this
    rfl
  | succ f ih =>
    intro n ds hn
    by_cases h10 : n < 10
    · have hmod : n % 10 = n := Nat.mod_eq_of_lt h10
      simp only [decDigitsCore, if_pos h10, List.foldl_cons, decEvalStep,
        Nat.mul_zero, Nat.zero_add, hmod, digitVal_digitChar n h10]
    · have hdiv : n / 10 < 10 ^ f := by
        rw [Nat.div_lt_iff_lt_mul (by omega : 0 < 10)]
        calc n < 10 ^ (f + 1) := hn
        _ = 10 ^ f * 10 := by rw [Nat.pow_succ]
      have := ih (n / 10) (Nat.digitChar (n % 10) :: ds) hdiv
      simp only [decDigitsCore, if_neg h10, this, List.foldl_cons,
        decEvalStep, digitVal_digitChar (n % 10) (Nat.mod_lt _ (by omega))]
      rw [Nat.div_add_mod]

/-- Every natural is below `10 ^ (n + 1)`, so `n + 1` fuel suffices. -/
theorem lt_ten_pow_succ (n : Nat) : n < 10 ^ (n + 1) :=
  lt_of_lt_of_le (Nat.lt_pow_self (by norm_num) n)
    (Nat.pow_le_pow_right (by norm_num) (Nat.le_succ n))

/-- Reading the rendering back yields the number. -/
theorem decEval_decDigits (n : Nat) : decEval (decDigits n) = n := by
  have := decDigitsCore_eval (n + 1) n [] (lt_ten_pow_succ n)
  simpa [decEval, decDigits] using this

/-- The decimal rendering is injective. -/
theorem decDigits_inj {m n : Nat} (h : decDigits m = decDigits n) : m = n := by
  have hm := decEval_decDigits m
  rw [h, decEval_decDigits] at hm
  exact hm.symm

/-- Distinct version indices have distinct file names. -/
theorem verName_inj (path : FsPath) {i j : Nat}
    (h : verName path i = verName path j) : i = j := by
  by_cases hi : i = 0 <;> by_cases hj : j = 0
  · omega
  · rw [verName, if_pos hi, verName, if_neg hj] at h
    have := congrArg List.length h
    simp [List.length_append] at this
  · rw [verName, if_neg hi, verName, if_pos hj] at h
    have := congrArg List.length h
    simp [List.length_append] at this
  · rw [verName, if_neg hi, verName, if_neg hj] at h
    have h2 : ('.' :: decDigits i) = ('.' :: decDigits j) :=
      List.append_cancel_left h
    exact decDigits_inj (List.cons_injective.eq_iff.mp h2 |>.symm ▸ rfl)

/-- Contrapositive form of `verName_inj`. -/
theorem verName_ne (path : FsPath) {i j : Nat} (h : i ≠ j) :
    verName path i ≠ verName path j :=
  fun he => h (verName_inj path he)

/-- A missing file at index `i` is skipped. -/
theorem shiftStep_none {fs : Fs} {path : FsPath} {oldest i : Nat}
    (h : fs (verName path i) = none) : shiftStep fs path oldest i = fs := by
  unfold shiftStep
  rw [h]

/-- An existing file at the oldest index is removed. -/
theorem shiftStep_remove {fs : Fs} {path : FsPath} {oldest i : Nat} {v : Nat}
    (h : fs (verName path i) = some v) (ho : i = oldest) :
    shiftStep fs path oldest i = fsRemove fs (verName path i) := by
  unfold shiftStep
  rw [h]
  exact if_pos ho

/-- An existing file at a non-oldest index is renamed one index up. -/
theorem shiftStep_rename {fs : Fs} {path : FsPath} {oldest i : Nat} {v : Nat}
    (h : fs (verName path i) = some v) (ho : i ≠ oldest) :
    shiftStep fs path oldest i =
      fsRename fs (verName path i) (verName path (i + 1)) := by
  unfold shiftStep
  rw [h]
  exact if_neg ho

/-- Invariant of the `shiftFileVersions` loop, proved down the iteration
index. Starting state `g` agrees with the original file system `fs0` at all
indices not yet processed (`j ≤ i`), index `i + 1` has already been vacated,
and all higher indices already hold their shifted contents; then the
completed loop vacates index 0, leaves every index `j ≥ 1` holding the
former content of index `j - 1` (or nothing), and touches no other name.
The chain hypotheses: `fs0` holds content `c j` exactly at indices
`j < k`, `k ≤ V`. -/
theorem shiftLoop_rotates (path : FsPath) (V k : Nat) (fs0 : Fs)
    (c : Nat → Nat) (hV : 1 ≤ V)
    (hex : ∀ i, i < k → fs0 (verName path i) = some (c i))
    (hne : ∀ i, i < V → k ≤ i → fs0 (verName path i) = none) :
    ∀ (i : Nat) (g : Fs), i ≤ V - 1 →
      (∀ j, j ≤ i → g (verName path j) = fs0 (verName path j)) →
      (i + 1 ≤ V - 1 → g (verName path (i + 1)) = none) →
      (∀ j, i + 2 ≤ j → j ≤ V - 1 →
        g (verName path j) = if j - 1 < k then some (c (j - 1)) else none) →
      (∀ n, (∀ j, j ≤ V - 1 → n ≠ verName path j) → g n = fs0 n) →
      shiftLoop path (V - 1) g i (verName path 0) = none ∧
        (∀ j, 1 ≤ j → j ≤ V - 1 →
          shiftLoop path (V - 1) g i (verName path j) =
            if j - 1 < k then some (c (j - 1)) else none) ∧
        (∀ n, (∀ j, j ≤ V - 1 → n ≠ verName path j) →
          shiftLoop path (V - 1) g i n = fs0 n) := by
  intro i
  induction i with
  | zero =>
    intro g hi ha hb hc hd
    have hg0 : g (verName path 0) = fs0 (verName path 0) := ha 0 (Nat.le_refl 0)
    by_cases h0k : 0 < k
    · have hsome : g (verName path 0) = some (c 0) := by
        rw [hg0]; exact hex 0 h0k
      by_cases hold : (0 : Nat) = V - 1
      · have hstep : shiftLoop path (V - 1) g 0 =
            fsRemove g (verName path 0) := shiftStep_remove hsome hold
        rw [hstep]
        refine ⟨by simp [fsRemove], ?_, ?_⟩
        · intro j h1 h2
          omega
        · intro n hn
          have hn0 : n ≠ verName path 0 := hn 0 (by omega)
          simp only [fsRemove, if_neg hn0]
          exact hd n hn
      · have hne01 : verName path 0 ≠ verName path 1 :=
          verName_ne path (by omega)
        have hstep : shiftLoop path (V - 1) g 0 =
            fsRename g (verName path 0) (verName path 1) :=
          shiftStep_rename hsome hold
        rw [hstep]
        refine ⟨?_, ?_, ?_⟩
        · simp [fsRename, hne01]
        · intro j h1 h2
          by_cases hj1 : j = 1
          · subst hj1
            simp only [fsRename, if_pos rfl, hsome]
            simp [h0k]
          · have hjne1 : verName path j ≠ verName path 1 :=
              verName_ne path (by omega)
            have hjne0 : verName path j ≠ verName path 0 :=
              verName_ne path (by omega)
            simp only [fsRename, if_neg hjne1, if_neg hjne0]
            exact hc j (by omega) h2
        · intro n hn
          have hn1 : n ≠ verName path 1 := hn 1 (by omega)
          have hn0 : n ≠ verName path 0 := hn 0 (by omega)
          simp only [fsRename, if_neg hn1, if_neg hn0]
          exact hd n hn
    · have hk0 : k = 0 := by omega
      have hnone : g (verName path 0) = none := by
        rw [hg0]; exact hne 0 (by omega) (by omega)
      have hstep : shiftLoop path (V - 1) g 0 = g := shiftStep_none hnone
      rw [hstep]
      refine ⟨hnone, ?_, hd⟩
      intro j h1 h2
      have hfalse : ¬ (j - 1 < k) := by omega
      rw [if_neg hfalse]
      by_cases hj1 : j = 1
      · subst hj1
        exact hb (by omega)
      · have := hc j (by omega) h2
        rw [if_neg hfalse] at this
        exact this
  | succ i ih =>
    intro g hi ha hb hc hd
    have hgi : g (verName path (i + 1)) = fs0 (verName path (i + 1)) :=
      ha (i + 1) (Nat.le_refl _)
    have hloop : shiftLoop path (V - 1) g (i + 1) =
        shiftLoop path (V - 1) (shiftStep g path (V - 1) (i + 1)) i := rfl
    by_cases hik : i + 1 < k
    · have hsome : g (verName path (i + 1)) = some (c (i + 1)) := by
        rw [hgi]; exact hex _ hik
      by_cases hold : i + 1 = V - 1
      · have hstep : shiftStep g path (V - 1) (i + 1) =
            fsRemove g (verName path (i + 1)) := shiftStep_remove hsome hold
        rw [hloop, hstep]
        apply ih
        · omega
        · intro j hj
          have hjne : verName path j ≠ verName path (i + 1) :=
            verName_ne path (by omega)
          simp only [fsRemove, if_neg hjne]
          exact ha j (by omega)
        · intro _
          simp [fsRemove]
        · intro j hj1 hj2
          omega
        · intro n hn
          have hni : n ≠ verName path (i + 1) := hn (i + 1) (by omega)
          simp only [fsRemove, if_neg hni]
          exact hd n hn
      · have hi2 : i + 2 ≤ V - 1 := by omega
        have hstep : shiftStep g path (V - 1) (i + 1) =
            fsRename g (verName path (i + 1)) (verName path (i + 2)) :=
          shiftStep_rename hsome hold
        rw [hloop, hstep]
        apply ih
        · omega
        · intro j hj
          have hjne2 : verName path j ≠ verName path (i + 2) :=
            verName_ne path (by omega)
          have hjne1 : verName path j ≠ verName path (i + 1) :=
            verName_ne path (by omega)
          simp only [fsRename, if_neg hjne2, if_neg hjne1]
          exact ha j (by omega)
        · intro _
          have h12 : verName path (i + 1) ≠ verName path (i + 2) :=
            verName_ne path (by omega)
          simp [fsRename, h12]
        · intro j hj1 hj2
          by_cases hj : j = i + 2
          · subst hj
            have h2k : i + 2 - 1 < k := by omega
            simp [fsRename, hsome, h2k, hik]
          · have hjne2 : verName path j ≠ verName path (i + 2) :=
              verName_ne path (by omega)
            have hjne1 : verName path j ≠ verName path (i + 1) :=
              verName_ne path (by omega)
            simp only [fsRename, if_neg hjne2, if_neg hjne1]
            exact hc j (by omega) hj2
        · intro n hn
          have hn2 : n ≠ verName path (i + 2) := hn (i + 2) hi2
          have hn1 : n ≠ verName path (i + 1) := hn (i + 1) (by omega)
          simp only [fsRename, if_neg hn2, if_neg hn1]
          exact hd n hn
    · have hnone : g (verName path (i + 1)) = none := by
        rw [hgi]; exact hne _ (by omega) (by omega)
      have hstep : shiftStep g path (V - 1) (i + 1) = g := shiftStep_none hnone
      rw [hloop, hstep]
      apply ih
      · omega
      · intro j hj
        exact ha j (by omega)
      · intro _
        exact hnone
      · intro j hj1 hj2
        by_cases hj : j = i + 2
        · subst hj
          have hfalse : ¬ (i + 2 - 1 < k) := by omega
          rw [if_neg hfalse]
          exact hb hj2
        · exact hc j (by omega) hj2
      · exact hd

/-! ### Theorem for claim C3 -/

/-- C3 (confirmed): version rotation. For a gap-free chain of `k ≤ V` files
(`V ≥ 1`) — content `c i` at `verName path i` for `i < k`, nothing at the
remaining indices below `V` — `shiftFileVersions` leaves: nothing at `path`
itself (the target is guaranteed free); the former content of index `j - 1`
at every index `1 ≤ j ≤ min k (V - 1)` (every surviving file's suffix grows
by exactly one, the chain stays gap-free, and when `k = V` the file at index
`V - 1` is deleted, its content nowhere retained); nothing at the indices
above `min k (V - 1)` up to `V - 1`; every name outside the chain untouched
(missing indices are skipped); and for `V = 1` the whole rotation equals
"delete `path` if it exists". -/
theorem shiftFileVersions_rotates (fs : Fs) (path : FsPath) (V k : Nat)
    (c : Nat → Nat) (hV : 1 ≤ V) (hk : k ≤ V)
    (hex : ∀ i, i < k → fs (verName path i) = some (c i))
    (hne : ∀ i, i < V → k ≤ i → fs (verName path i) = none) :
    shiftFileVersions fs path V (verName path 0) = none ∧
    (∀ j, 1 ≤ j → j ≤ min k (V - 1) →
      shiftFileVersions fs path V (verName path j) = some (c (j - 1))) ∧
    (∀ j, min k (V - 1) < j → j < V →
      shiftFileVersions fs path V (verName path j) = none) ∧
    (∀ n, (∀ i, i < V → n ≠ verName path i) →
      shiftFileVersions fs path V n = fs n) ∧
    (V = 1 → ∀ n, shiftFileVersions fs path V n = fsRemove fs path n) := by
  have hV0 : V ≠ 0 := by omega
  have hunfold : shiftFileVersions fs path V = shiftLoop path (V - 1) fs (V - 1) := by
    simp [shiftFileVersions, hV0]
  have main := shiftLoop_rotates path V k fs c hV hex hne (V - 1) fs
    (Nat.le_refl _) (fun j _ => rfl)
    (fun h => absurd h (by omega))
    (fun j hj1 hj2 => absurd hj2 (by omega))
    (fun n _ => rfl)
  refine ⟨?_, ?_, ?_, ?_, ?_⟩
  · rw [hunfold]
    exact main.1
  · intro j h1 h2
    rw [hunfold]
    have := main.2.1 j h1 (by omega)
    rw [if_pos (by omega : j - 1 < k)] at this
    exact this
  · intro j h1 h2
    rw [hunfold]
    have := main.2.1 j (by omega) (by omega)
    rw [if_neg (by omega : ¬ (j - 1 < k))] at this
    exact this
  · intro n hn
    rw [hunfold]
    exact main.2.2 n (fun j hj => hn j (by omega))
  · intro hV1 n
    subst hV1
    have h0 : verName path 0 = path := by simp [verName]
    have hshift : shiftFileVersions fs path 1 = shiftStep fs path 0 0 := rfl
    rw [hshift]
    cases hfs : fs (verName path 0) with
    | none =>
      rw [shiftStep_none hfs]
      by_cases hnp : n = path
      · subst hnp
        rw [h0] at hfs
        simp [fsRemove, hfs]
      · simp [fsRemove, hnp]
    | some v =>
      rw [shiftStep_remove hfs rfl, h0]

/-- Witness for `shiftFileVersions_rotates`: a chain of two files
(`"a"` holding 10, `"a.1"` holding 11) under cap 3 rotates to `"a.1"`
holding 10 and `"a.2"` holding 11, with `"a"` free. -/
theorem shiftFileVersions_rotates_witness :
    shiftFileVersions
        (fun n => if n = verName ['a'] 0 then some 10
          else if n = verName ['a'] 1 then some 11 else (none : Option Nat))
        ['a'] 3 (verName ['a'] 0) = none ∧
    shiftFileVersions
        (fun n => if n = verName ['a'] 0 then some 10
          else if n = verName ['a'] 1 then some 11 else (none : Option Nat))
        ['a'] 3 (verName ['a'] 1) = some 10 ∧
    shiftFileVersions
        (fun n => if n = verName ['a'] 0 then some 10
          else if n = verName ['a'] 1 then some 11 else (none : Option Nat))
        ['a'] 3 (verName ['a'] 2) = some 11 := by
  have main := shiftFileVersions_rotates
    (fun n => if n = verName ['a'] 0 then some 10
      else if n = verName ['a'] 1 then some 11 else (none : Option Nat))
    ['a'] 3 2 (fun i => 10 + i) (by decide) (by decide)
    (by decide) (by decide)
  exact ⟨main.1, main.2.1 1 (by decide) (by decide),
    main.2.1 2 (by decide) (by decide)⟩

end DistributedBackup
